import Mathlib

/-!
Verification of the ARINC 429 message codec (crate arinc_429).

The development shallowly embeds the Rust source: a Message wraps a 32-bit
word, modelled as a natural number together with a bound hypothesis
v < 2 ^ 32 in every theorem.  All operations are translated directly from
src/lib.rs and src/parity_error.rs: label-bit swapping, odd-parity checking
and repair, label extraction, and the Debug renderings of Message and Label.
-/

set_option maxRecDepth 4000

/-- Record of a detected parity mismatch, from src/parity_error.rs.
Both fields are u8 values that are always 0 or 1. -/
structure ParityError where
  expected : Nat
  actual : Nat
deriving DecidableEq

/-- Constructor ParityError::new from src/parity_error.rs. -/
def ParityError.new (expected actual : Nat) : ParityError :=
  { expected := expected, actual := actual }

deriving instance DecidableEq for Except

/-- An ARINC 429 message: a newtype over a 32-bit word (src/lib.rs).
The field models Message::bits(); theorems carry the bound bits < 2 ^ 32. -/
structure Message where
  bits : Nat
deriving DecidableEq

/-- A label extracted from a message, stored in normal bit ordering
as a u8 (src/lib.rs, struct Label). -/
structure Label where
  val : Nat
deriving DecidableEq

/-- Conversion impl From u32 for Message: copies bits with no changes. -/
def Message.fromU32 (bits : Nat) : Message :=
  Message.mk bits

/-- Conversion impl From Message for u32: copies bits with no changes. -/
def u32FromMessage : Message → Nat
  | Message.mk bits => bits

/-- Fuel-indexed population count; models the recursion count := (n mod 2)
plus the count of (n / 2).  The fuel argument only forces termination. -/
def countOnesAux : Nat → Nat → Nat
  | 0, _ => 0
  | fuel + 1, n => if n = 0 then 0 else n % 2 + countOnesAux fuel (n / 2)

/-- Model of u32::count_ones, the population count of a 32-bit word.
Fuel 32 suffices for every n < 2 ^ 32. -/
def count_ones (n : Nat) : Nat :=
  countOnesAux 32 n

/-- Message::swap_label_bits from src/lib.rs: reverses the order of the
8 least significant bits of a value, keeping bits 8-31 unmodified. -/
def Message.swap_label_bits (bits : Nat) : Nat :=
  let label := bits &&& 0xff
  let new_label := ((label &&& 0x1) <<< 7) ||| ((label &&& 0x2) <<< 5) ||| ((label &&& 0x4) <<< 3) |||
      ((label &&& 0x8) <<< 1) |||
      ((label &&& 0x10) >>> 1) ||| ((label &&& 0x20) >>> 3) |||
      ((label &&& 0x40) >>> 5) ||| ((label &&& 0x80) >>> 7)
  (bits &&& 0xffffff00) ||| new_label

/-- Message::bits_label_swapped: the bits of this message with the order of
the 8 label bits reversed. -/
def Message.bits_label_swapped (m : Message) : Nat :=
  Message.swap_label_bits m.bits

/-- Message::from_bits_label_swapped: builds a message from a representation
with the 8 label bits reversed. -/
def Message.from_bits_label_swapped (bits : Nat) : Message :=
  Message.mk (Message.swap_label_bits bits)

/-- Message::check_parity: Ok when the word has an odd number of ones,
otherwise a ParityError built from the parity bit (bit 31, read as u8). -/
def Message.check_parity (m : Message) : Except ParityError Unit :=
  if count_ones m.bits % 2 = 1 then
    Except.ok ()
  else
    let parity := (m.bits >>> 31) % 256
    let expected := parity ^^^ 1
    Except.error (ParityError.new expected parity)

/-- Message::update_parity: returns the message unchanged when parity is
already odd, otherwise flips bit 31. -/
def Message.update_parity (m : Message) : Message :=
  match m.check_parity with
  | Except.ok _ => m
  | Except.error _ => Message.mk (m.bits ^^^ (1 <<< 31))

/-- Message::label: applies the label-bit swap and truncates to u8. -/
def Message.label (m : Message) : Label :=
  let swapped := Message.swap_label_bits m.bits
  Label.mk (swapped % 256)

/-- The pure 8-bit reversal used inside Message::swap_label_bits, isolated
as the new_label expression applied to an arbitrary input. -/
def rev8 (l : Nat) : Nat :=
  ((l &&& 0x1) <<< 7) ||| ((l &&& 0x2) <<< 5) ||| ((l &&& 0x4) <<< 3) |||
      ((l &&& 0x8) <<< 1) |||
      ((l &&& 0x10) >>> 1) ||| ((l &&& 0x20) >>> 3) |||
      ((l &&& 0x40) >>> 5) ||| ((l &&& 0x80) >>> 7)

/-- Fuel-indexed digit list of n in base b, most significant digit first,
empty for n = 0; models the digit loop of Rust's integer formatting. -/
def digitsAux (b : Nat) : Nat → Nat → List Char
  | 0, _ => []
  | fuel + 1, n => if n = 0 then [] else digitsAux b fuel (n / b) ++ [Nat.digitChar (n % b)]

/-- Digit characters of n in base b (lowercase, most significant first).
Fuel 32 suffices for every n < 2 ^ 32 when b ≥ 2. -/
def radixDigits (b n : Nat) : List Char :=
  digitsAux b 32 n

/-- Model of Rust's alternate-form zero-padded integer formatting
(as in the format specifiers used by the crate's Debug impls): the base
marker character c after the leading 0, then the digits of n in base b,
left-padded with zeros so the whole rendering has the given width. -/
def formatRadix (c : Char) (b width n : Nat) : String :=
  let ds := if n = 0 then ['0'] else radixDigits b n
  String.mk ('0' :: c :: (List.replicate (width - 2 - ds.length) '0' ++ ds))

/-- Debug rendering of a Message from src/lib.rs msg_fmt:
write(f, Message(\x7b:#010x\x7d), self.0). -/
def Message.fmt_debug (m : Message) : String :=
  "Message(" ++ formatRadix 'x' 16 10 m.bits ++ ")"

/-- Debug rendering of a Label from src/lib.rs msg_fmt:
write(f, Label(\x7b:#05o\x7d), self.0). -/
def Label.fmt_debug (l : Label) : String :=
  "Label(" ++ formatRadix 'o' 8 5 l.val ++ ")"

/-! ### Population-count lemmas -/

theorem countOnesAux_congr :
    ∀ f1 : Nat, ∀ f2 n : Nat, n < 2 ^ f1 → n < 2 ^ f2 →
      countOnesAux f1 n = countOnesAux f2 n := by
  intro f1
  induction f1 with
  | zero =>
    intro f2 n h1 _
    have hn : n = 0 := by simpa using Nat.lt_one_iff.mp h1
    subst hn
    cases f2 <;> simp [countOnesAux]
  | succ f ih =>
    intro f2 n h1 h2
    by_cases hn : n = 0
    · subst hn
      cases f2 <;> simp [countOnesAux]
    · have hf2 : f2 ≠ 0 := by
        intro h
        subst h
        simp at h2
        omega
      obtain ⟨g, rfl⟩ := Nat.exists_eq_succ_of_ne_zero hf2
      simp only [countOnesAux, if_neg hn]
      have hp1 : 2 ^ (f + 1) = 2 * 2 ^ f := by ring
      have hp2 : 2 ^ (g + 1) = 2 * 2 ^ g := by ring
      have d1 : n / 2 < 2 ^ f := by rw [hp1] at h1; omega
      have d2 : n / 2 < 2 ^ g := by rw [hp2] at h2; omega
      rw [ih g (n / 2) d1 d2]

theorem count_ones_rec (n : Nat) (hn : n < 2 ^ 32) :
    count_ones n = n % 2 + count_ones (n / 2) := by
  by_cases h : n = 0
  · subst h
    simp [count_ones, countOnesAux]
  · show countOnesAux 32 n = n % 2 + countOnesAux 32 (n / 2)
    have step : countOnesAux 32 n = n % 2 + countOnesAux 31 (n / 2) := by
      show countOnesAux (31 + 1) n = n % 2 + countOnesAux 31 (n / 2)
      simp only [countOnesAux, if_neg h]
    rw [step]
    congr 1
    exact countOnesAux_congr 31 32 (n / 2) (by omega) (by omega)

theorem count_ones_zero : count_ones 0 = 0 := rfl

theorem count_ones_one : count_ones 1 = 1 := rfl

theorem count_ones_mul_pow_add :
    ∀ k h lo : Nat, lo < 2 ^ k → 2 ^ k * h + lo < 2 ^ 32 →
      count_ones (2 ^ k * h + lo) = count_ones h + count_ones lo := by
  intro k
  induction k with
  | zero =>
    intro h lo hlo _
    have : lo = 0 := by omega
    subst this
    simp [count_ones_zero]
  | succ k ih =>
    intro h lo hlo hb
    have hsp : 2 ^ (k + 1) * h = 2 * (2 ^ k * h) := by ring
    have e1 : (2 ^ (k + 1) * h + lo) % 2 = lo % 2 := by rw [hsp]; omega
    have e2 : (2 ^ (k + 1) * h + lo) / 2 = 2 ^ k * h + lo / 2 := by rw [hsp]; omega
    have hlo2 : lo / 2 < 2 ^ k := by
      have : 2 ^ (k + 1) = 2 * 2 ^ k := by ring
      omega
    have hb2 : 2 ^ k * h + lo / 2 < 2 ^ 32 := by
      have h1 : 2 ^ k * h ≤ 2 ^ (k + 1) * h := by
        have : 2 ^ k ≤ 2 ^ (k + 1) := Nat.pow_le_pow_right (by omega) (by omega)
        exact Nat.mul_le_mul_right h this
      omega
    rw [count_ones_rec _ hb, e1, e2, ih h (lo / 2) hlo2 hb2,
      count_ones_rec lo (by omega)]
    omega

theorem count_ones_eq_countP :
    ∀ k : Nat, k ≤ 32 → ∀ v : Nat, v < 2 ^ k →
      count_ones v = (List.range k).countP (fun i => v.testBit i) := by
  intro k
  induction k with
  | zero =>
    intro _ v hv
    have : v = 0 := by omega
    subst this
    simp [count_ones_zero]
  | succ k ih =>
    intro hk v hv
    have hv32 : v < 2 ^ 32 :=
      Nat.lt_of_lt_of_le hv (Nat.pow_le_pow_right (by omega) hk)
    rw [count_ones_rec v hv32, List.range_succ_eq_map, List.countP_cons,
      List.countP_map]
    have hcomp :
        ((fun i => v.testBit i) ∘ Nat.succ) = fun i => (v / 2).testBit i := by
      funext i
      simp [Function.comp, Nat.testBit_div_two]
    have hbit0 : (if v.testBit 0 then 1 else 0) = v % 2 := by
      rw [show v.testBit 0 = decide (v / 2 ^ 0 % 2 = 1) from Nat.testBit_to_div_mod]
      rcases Nat.mod_two_eq_zero_or_one v with h | h <;> simp [h]
    have hdiv : v / 2 < 2 ^ k := by
      have : 2 ^ (k + 1) = 2 * 2 ^ k := by ring
      omega
    rw [hcomp, ← ih (by omega) (v / 2) hdiv, hbit0]
    omega

/-! ### Facts about the 8-bit reversal, checked over all 256 label values -/

theorem rev8_lt : ∀ l, l < 256 → rev8 l < 256 := by decide

theorem rev8_rev8 : ∀ l, l < 256 → rev8 (rev8 l) = l := by decide

theorem rev8_count : ∀ l, l < 256 → count_ones (rev8 l) = count_ones l := by decide

theorem rev8_testBit :
    ∀ l, l < 256 → ∀ i, i < 8 → (rev8 l).testBit i = l.testBit (7 - i) := by decide

/-! ### Bit-level decomposition of the masking and shifting operations -/

theorem lor_mul_pow_eq_add (k q s : Nat) (hs : s < 2 ^ k) :
    (2 ^ k * q) ||| s = 2 ^ k * q + s := by
  apply Nat.eq_of_testBit_eq
  intro i
  rw [Nat.testBit_or]
  have e1 : (2 ^ k * q).testBit i =
      if i < k then Nat.testBit 0 i else q.testBit (i - k) := by
    simpa using Nat.testBit_mul_pow_two_add q (Nat.pos_pow_of_pos k (by omega)) i
  have e2 : (2 ^ k * q + s).testBit i =
      if i < k then s.testBit i else q.testBit (i - k) :=
    Nat.testBit_mul_pow_two_add q hs i
  rw [e1, e2]
  by_cases hi : i < k
  · simp [hi, Nat.zero_testBit]
  · have hsl : s < 2 ^ i :=
      Nat.lt_of_lt_of_le hs (Nat.pow_le_pow_right (by omega) (by omega))
    simp [hi, Nat.testBit_lt_two_pow hsl]

theorem and_255 (v : Nat) : v &&& 0xff = v % 2 ^ 8 := by
  have h : (0xff : Nat) = 2 ^ 8 - 1 := by norm_num
  rw [h, Nat.and_pow_two_sub_one_eq_mod]

theorem mask_high_testBit : ∀ j, j < 32 → (0xffffff00 : Nat).testBit j = decide (8 ≤ j) := by
  decide

theorem and_ffffff00 (v : Nat) (hv : v < 2 ^ 32) :
    v &&& 0xffffff00 = 2 ^ 8 * (v / 2 ^ 8) := by
  apply Nat.eq_of_testBit_eq
  intro i
  rw [Nat.testBit_and]
  have emul : (2 ^ 8 * (v / 2 ^ 8)).testBit i =
      if i < 8 then Nat.testBit 0 i else (v / 2 ^ 8).testBit (i - 8) := by
    simpa using Nat.testBit_mul_pow_two_add (v / 2 ^ 8) (show 0 < 2 ^ 8 by norm_num) i
  by_cases hi : i < 8
  · have hm : (0xffffff00 : Nat).testBit i = false := by
      rw [mask_high_testBit i (by omega)]
      simp only [decide_eq_false_iff_not]
      omega
    rw [hm, emul, if_pos hi]
    simp [Nat.zero_testBit]
  · by_cases hi32 : i < 32
    · have hm : (0xffffff00 : Nat).testBit i = true := by
        rw [mask_high_testBit i hi32]
        simp only [decide_eq_true_eq]
        omega
      have hdiv : (v / 2 ^ 8).testBit (i - 8) = v.testBit i := by
        rw [← Nat.shiftRight_eq_div_pow, Nat.testBit_shiftRight]
        congr 1
        omega
      rw [hm, emul, if_neg hi, hdiv, Bool.and_true]
    · have h1 : v.testBit i = false :=
        Nat.testBit_lt_two_pow
          (Nat.lt_of_lt_of_le hv (Nat.pow_le_pow_right (by omega) (by omega)))
      have h2 : (2 ^ 8 * (v / 2 ^ 8)).testBit i = false := by
        apply Nat.testBit_lt_two_pow
        have hle : 2 ^ 8 * (v / 2 ^ 8) ≤ v := by omega
        exact Nat.lt_of_le_of_lt hle
          (Nat.lt_of_lt_of_le hv (Nat.pow_le_pow_right (by omega) (by omega)))
      rw [h1, h2]
      simp

theorem swap_label_bits_eq_rev (bits : Nat) :
    Message.swap_label_bits bits = (bits &&& 0xffffff00) ||| rev8 (bits &&& 0xff) := rfl

theorem swap_label_bits_closed (v : Nat) (hv : v < 2 ^ 32) :
    Message.swap_label_bits v = 2 ^ 8 * (v / 2 ^ 8) + rev8 (v % 2 ^ 8) := by
  rw [swap_label_bits_eq_rev, and_255, and_ffffff00 v hv]
  exact lor_mul_pow_eq_add 8 (v / 2 ^ 8) (rev8 (v % 2 ^ 8))
    (by have := rev8_lt (v % 2 ^ 8) (by omega); omega)

theorem swap_lt (v : Nat) (hv : v < 2 ^ 32) : Message.swap_label_bits v < 2 ^ 32 := by
  rw [swap_label_bits_closed v hv]
  have h2 : rev8 (v % 2 ^ 8) < 256 := rev8_lt _ (by omega)
  omega

theorem swap_div (v : Nat) (hv : v < 2 ^ 32) :
    Message.swap_label_bits v / 2 ^ 8 = v / 2 ^ 8 := by
  rw [swap_label_bits_closed v hv]
  have h2 : rev8 (v % 2 ^ 8) < 256 := rev8_lt _ (by omega)
  omega

theorem swap_mod (v : Nat) (hv : v < 2 ^ 32) :
    Message.swap_label_bits v % 2 ^ 8 = rev8 (v % 2 ^ 8) := by
  rw [swap_label_bits_closed v hv]
  have h2 : rev8 (v % 2 ^ 8) < 256 := rev8_lt _ (by omega)
  omega

theorem swap_swap (v : Nat) (hv : v < 2 ^ 32) :
    Message.swap_label_bits (Message.swap_label_bits v) = v := by
  have h2 : rev8 (v % 2 ^ 8) < 256 := rev8_lt _ (by omega)
  rw [swap_label_bits_closed _ (swap_lt v hv), swap_div v hv, swap_mod v hv,
    rev8_rev8 (v % 2 ^ 8) (by omega)]
  omega

theorem swap_testBit_high (v : Nat) (hv : v < 2 ^ 32) (i : Nat) (hi : 8 ≤ i) :
    (Message.swap_label_bits v).testBit i = v.testBit i := by
  have hx : ∀ x : Nat, x.testBit i = (x / 2 ^ 8).testBit (i - 8) := by
    intro x
    rw [← Nat.shiftRight_eq_div_pow, Nat.testBit_shiftRight]
    congr 1
    omega
  rw [hx, hx v, swap_div v hv]

theorem swap_count (v : Nat) (hv : v < 2 ^ 32) :
    count_ones (Message.swap_label_bits v) = count_ones v := by
  have hr : rev8 (v % 2 ^ 8) < 2 ^ 8 := by
    have := rev8_lt (v % 2 ^ 8) (by omega)
    omega
  rw [swap_label_bits_closed v hv,
    count_ones_mul_pow_add 8 (v / 2 ^ 8) (rev8 (v % 2 ^ 8)) hr (by omega),
    rev8_count (v % 2 ^ 8) (by omega)]
  conv_rhs => rw [← Nat.div_add_mod v (2 ^ 8)]
  rw [count_ones_mul_pow_add 8 (v / 2 ^ 8) (v % 2 ^ 8) (by omega) (by omega)]

/-! ### Flipping the parity bit -/

theorem one_shl_31 : (1 <<< 31 : Nat) = 2 ^ 31 := by decide

theorem xor_bit31_testBit (v i : Nat) :
    (v ^^^ 1 <<< 31).testBit i = if i = 31 then !(v.testBit i) else v.testBit i := by
  rw [one_shl_31, Nat.testBit_xor, Nat.testBit_two_pow]
  by_cases h : i = 31
  · subst h
    simp
  · have : (31 = i) = False := by simp; omega
    simp [h, this]

theorem xor_bit31_mod256 (v : Nat) : (v ^^^ 1 <<< 31) % 2 ^ 8 = v % 2 ^ 8 := by
  apply Nat.eq_of_testBit_eq
  intro j
  rw [Nat.testBit_mod_two_pow, Nat.testBit_mod_two_pow]
  by_cases hj : j < 8
  · rw [xor_bit31_testBit, if_neg (by omega)]
  · simp [hj]

theorem xor_bit31_decomp (v : Nat) (hv : v < 2 ^ 32) :
    v ^^^ 1 <<< 31 = 2 ^ 31 * (1 - v / 2 ^ 31) + v % 2 ^ 31 := by
  have hd : v / 2 ^ 31 < 2 := by omega
  apply Nat.eq_of_testBit_eq
  intro i
  rw [xor_bit31_testBit]
  have emul : (2 ^ 31 * (1 - v / 2 ^ 31) + v % 2 ^ 31).testBit i =
      if i < 31 then (v % 2 ^ 31).testBit i else (1 - v / 2 ^ 31).testBit (i - 31) :=
    Nat.testBit_mul_pow_two_add (1 - v / 2 ^ 31) (show v % 2 ^ 31 < 2 ^ 31 by omega) i
  rw [emul]
  by_cases hi : i < 31
  · rw [if_neg (by omega), if_pos hi, Nat.testBit_mod_two_pow]
    simp [hi]
  · by_cases hi31 : i = 31
    · subst hi31
      rw [if_pos rfl, if_neg (by omega)]
      have hb : v.testBit 31 = decide (v / 2 ^ 31 % 2 = 1) := Nat.testBit_to_div_mod
      have hb0 : (1 - v / 2 ^ 31).testBit 0 =
          decide ((1 - v / 2 ^ 31) / 2 ^ 0 % 2 = 1) := Nat.testBit_to_div_mod
      rcases (show v / 2 ^ 31 = 0 ∨ v / 2 ^ 31 = 1 by omega) with h0 | h1
      · rw [hb, hb0, h0]
        simp
      · rw [hb, hb0, h1]
        simp
    · have hgt : 32 ≤ i := by omega
      rw [if_neg hi31, if_neg hi]
      have h1 : v.testBit i = false :=
        Nat.testBit_lt_two_pow
          (Nat.lt_of_lt_of_le hv (Nat.pow_le_pow_right (by omega) hgt))
      have h2 : (1 - v / 2 ^ 31).testBit (i - 31) = false := by
        apply Nat.testBit_lt_two_pow
        have : 1 - v / 2 ^ 31 < 2 ^ 1 := by omega
        exact Nat.lt_of_lt_of_le this (Nat.pow_le_pow_right (by omega) (by omega))
      rw [h1, h2]

theorem xor_bit31_lt (v : Nat) (hv : v < 2 ^ 32) : v ^^^ 1 <<< 31 < 2 ^ 32 := by
  rw [xor_bit31_decomp v hv]
  have : v % 2 ^ 31 < 2 ^ 31 := by omega
  omega

theorem count_xor_bit31 (v : Nat) (hv : v < 2 ^ 32) :
    count_ones (v ^^^ 1 <<< 31) % 2 = (count_ones v + 1) % 2 := by
  have hm : v % 2 ^ 31 < 2 ^ 31 := by omega
  rw [xor_bit31_decomp v hv,
    count_ones_mul_pow_add 31 (1 - v / 2 ^ 31) (v % 2 ^ 31) hm (by omega)]
  conv_rhs => rw [← Nat.div_add_mod v (2 ^ 31)]
  rw [count_ones_mul_pow_add 31 (v / 2 ^ 31) (v % 2 ^ 31) hm (by omega)]
  rcases (show v / 2 ^ 31 = 0 ∨ v / 2 ^ 31 = 1 by omega) with h0 | h1
  · rw [h0]
    norm_num [count_ones_zero, count_ones_one]
    omega
  · rw [h1]
    norm_num [count_ones_zero, count_ones_one]
    omega

/-! ### Characterizations of check_parity and update_parity -/

theorem check_parity_def (v : Nat) :
    Message.check_parity (Message.mk v) =
      if count_ones v % 2 = 1 then Except.ok ()
      else Except.error (ParityError.new (((v >>> 31) % 256) ^^^ 1) ((v >>> 31) % 256)) := rfl

theorem update_parity_def (v : Nat) :
    Message.update_parity (Message.mk v) =
      if count_ones v % 2 = 1 then Message.mk v else Message.mk (v ^^^ 1 <<< 31) := by
  unfold Message.update_parity
  rw [check_parity_def]
  by_cases h : count_ones v % 2 = 1 <;> simp [h]

theorem check_parity_ok_iff (v : Nat) :
    Message.check_parity (Message.mk v) = Except.ok () ↔ count_ones v % 2 = 1 := by
  rw [check_parity_def]
  by_cases h : count_ones v % 2 = 1 <;> simp [h]

theorem update_parity_check_ok (v : Nat) (hv : v < 2 ^ 32) :
    Message.check_parity (Message.update_parity (Message.mk v)) = Except.ok () := by
  rw [update_parity_def]
  by_cases h : count_ones v % 2 = 1
  · rw [if_pos h, check_parity_def, if_pos h]
  · rw [if_neg h, check_parity_def, if_pos (by rw [count_xor_bit31 v hv]; omega)]

/-! ### Digit lists and zero-padded formatting -/

theorem digitsAux_congr (b : Nat) (hb : 2 ≤ b) :
    ∀ f1 : Nat, ∀ f2 n : Nat, n < b ^ f1 → n < b ^ f2 →
      digitsAux b f1 n = digitsAux b f2 n := by
  intro f1
  induction f1 with
  | zero =>
    intro f2 n h1 _
    have hb0 : b ^ 0 = 1 := pow_zero b
    have hn : n = 0 := by omega
    subst hn
    cases f2 <;> simp [digitsAux]
  | succ f ih =>
    intro f2 n h1 h2
    by_cases hn : n = 0
    · subst hn
      cases f2 <;> simp [digitsAux]
    · have hf2 : f2 ≠ 0 := by
        intro h
        subst h
        have : b ^ 0 = 1 := pow_zero b
        omega
      obtain ⟨g, rfl⟩ := Nat.exists_eq_succ_of_ne_zero hf2
      simp only [digitsAux, if_neg hn]
      have d1 : n / b < b ^ f := by
        rw [Nat.div_lt_iff_lt_mul (by omega : 0 < b)]
        calc n < b ^ (f + 1) := h1
          _ = b ^ f * b := pow_succ b f
      have d2 : n / b < b ^ g := by
        rw [Nat.div_lt_iff_lt_mul (by omega : 0 < b)]
        calc n < b ^ (g + 1) := h2
          _ = b ^ g * b := pow_succ b g
      rw [ih g (n / b) d1 d2]

theorem digits_zero (b : Nat) : radixDigits b 0 = [] := rfl

theorem digits_rec (b : Nat) (hb : 2 ≤ b) (n : Nat) (hpos : n ≠ 0) (hn : n < b ^ 32) :
    radixDigits b n = radixDigits b (n / b) ++ [Nat.digitChar (n % b)] := by
  show digitsAux b 32 n = _
  have step : digitsAux b 32 n = digitsAux b 31 (n / b) ++ [Nat.digitChar (n % b)] := by
    show digitsAux b (31 + 1) n = _
    simp only [digitsAux, if_neg hpos]
  rw [step]
  congr 1
  apply digitsAux_congr b hb 31 32 (n / b)
  · rw [Nat.div_lt_iff_lt_mul (by omega : 0 < b)]
    calc n < b ^ 32 := hn
      _ = b ^ 31 * b := pow_succ b 31
  · exact Nat.lt_of_le_of_lt (Nat.div_le_self n b) hn

theorem padded_digits (b : Nat) (hb : 2 ≤ b) :
    ∀ k : Nat, k ≤ 32 → ∀ n : Nat, n < b ^ k →
      List.replicate (k - (radixDigits b n).length) '0' ++ radixDigits b n =
        (List.range k).map (fun j => Nat.digitChar (n / b ^ (k - 1 - j) % b)) := by
  intro k
  induction k with
  | zero =>
    intro _ n hn
    have hb0 : b ^ 0 = 1 := pow_zero b
    have : n = 0 := by omega
    subst this
    simp [digits_zero]
  | succ k ih =>
    intro hk n hn
    have hd0 : Nat.digitChar 0 = '0' := rfl
    have hsplit : (List.range (k + 1)).map
          (fun j => Nat.digitChar (n / b ^ (k + 1 - 1 - j) % b)) =
        (List.range k).map (fun j => Nat.digitChar (n / b / b ^ (k - 1 - j) % b)) ++
          [Nat.digitChar (n % b)] := by
      rw [List.range_succ, List.map_append]
      congr 1
      · apply List.map_congr_left
        intro j hj
        have hjk : j < k := List.mem_range.mp hj
        have e : n / b ^ (k + 1 - 1 - j) = n / b / b ^ (k - 1 - j) := by
          rw [Nat.div_div_eq_div_mul]
          congr 1
          rw [show k + 1 - 1 - j = (k - 1 - j) + 1 by omega, pow_succ]
          ring
        rw [e]
      · simp
    rw [hsplit]
    by_cases hn0 : n = 0
    · subst hn0
      simp only [digits_zero, List.length_nil, Nat.sub_zero, List.append_nil,
        Nat.zero_div, Nat.zero_mod, hd0]
      rw [List.map_const', List.length_range]
      have : List.replicate (k + 1) '0' = List.replicate k '0' ++ ['0'] :=
        List.replicate_succ' k '0'
      rw [this]
    · have hle : b ^ (k + 1) ≤ b ^ 32 := Nat.pow_le_pow_right (by omega) hk
      rw [digits_rec b hb n hn0 (Nat.lt_of_lt_of_le hn hle)]
      have hlen : (radixDigits b (n / b) ++ [Nat.digitChar (n % b)]).length =
          (radixDigits b (n / b)).length + 1 := by simp
      rw [hlen]
      have hdivlt : n / b < b ^ k := by
        rw [Nat.div_lt_iff_lt_mul (by omega : 0 < b)]
        calc n < b ^ (k + 1) := hn
          _ = b ^ k * b := pow_succ b k
      rw [show k + 1 - ((radixDigits b (n / b)).length + 1) =
          k - (radixDigits b (n / b)).length by omega]
      rw [← List.append_assoc]
      rw [ih (by omega) (n / b) hdivlt]

theorem formatRadix_eq (c : Char) (b : Nat) (hb : 2 ≤ b) (k : Nat) (hk0 : 0 < k)
    (hk : k ≤ 32) (n : Nat) (hn : n < b ^ k) :
    formatRadix c b (k + 2) n =
      String.mk ('0' :: c ::
        (List.range k).map (fun j => Nat.digitChar (n / b ^ (k - 1 - j) % b))) := by
  have hfr : formatRadix c b (k + 2) n =
      String.mk ('0' :: c ::
        (List.replicate (k + 2 - 2 - (if n = 0 then ['0'] else radixDigits b n).length) '0' ++
          (if n = 0 then ['0'] else radixDigits b n))) := rfl
  rw [hfr]
  refine congrArg (fun t => String.mk ('0' :: c :: t)) ?_
  by_cases hn0 : n = 0
  · subst hn0
    rw [if_pos rfl]
    have h0 : (List.range k).map
        (fun j => Nat.digitChar ((0 : Nat) / b ^ (k - 1 - j) % b)) =
        List.replicate k '0' := by
      have hp := padded_digits b hb k hk 0 (Nat.pos_pow_of_pos k (by omega))
      simp only [digits_zero, List.length_nil, Nat.sub_zero, List.append_nil] at hp
      exact hp.symm
    rw [h0, show k + 2 - 2 - (['0'] : List Char).length = k - 1 by simp]
    have : List.replicate k '0' = List.replicate (k - 1) '0' ++ ['0'] := by
      rw [show k = k - 1 + 1 by omega]
      rw [show k - 1 + 1 - 1 = k - 1 by omega]
      exact List.replicate_succ' (k - 1) '0'
    rw [this]
  · rw [if_neg hn0]
    rw [show k + 2 - 2 - (radixDigits b n).length = k - (radixDigits b n).length by omega]
    exact padded_digits b hb k hk n hn

/-! ### Claim theorems -/

theorem update_parity_of_ok (m : Message) (h : m.check_parity = Except.ok ()) :
    m.update_parity = m := by
  unfold Message.update_parity
  rw [h]

/-- C1: for every 32-bit value v, check_parity on Message::from(v) succeeds
if and only if the population count (number of set bits) of v is odd; when it
fails, the returned ParityError has actual equal to bit 31 of v and expected
equal to the bitwise complement of that bit (each 0 or 1). -/
theorem claim_C1_check_parity (v : Nat) (hv : v < 2 ^ 32) :
    (Message.check_parity (Message.fromU32 v) = Except.ok () ↔
        (List.range 32).countP (fun i => v.testBit i) % 2 = 1) ∧
    (Message.check_parity (Message.fromU32 v) ≠ Except.ok () →
      Message.check_parity (Message.fromU32 v) =
        Except.error (ParityError.new (if v.testBit 31 then 0 else 1)
          (if v.testBit 31 then 1 else 0))) := by
  have hM : Message.fromU32 v = Message.mk v := rfl
  have hcount := count_ones_eq_countP 32 (by omega) v hv
  constructor
  · rw [hM, check_parity_ok_iff, hcount]
  · intro hne
    rw [hM] at hne ⊢
    have hpar : ¬ count_ones v % 2 = 1 := fun h => hne ((check_parity_ok_iff v).mpr h)
    rw [check_parity_def, if_neg hpar]
    have hs : v >>> 31 = v / 2 ^ 31 := Nat.shiftRight_eq_div_pow v 31
    have hbit : v.testBit 31 = decide (v / 2 ^ 31 % 2 = 1) := Nat.testBit_to_div_mod
    rw [hs, hbit]
    rcases (show v / 2 ^ 31 = 0 ∨ v / 2 ^ 31 = 1 by omega) with h0 | h1
    · rw [h0]
      decide
    · rw [h1]
      decide

/-- Witness for C1 at the even-parity word 0xf03ccccc. -/
theorem claim_C1_witness :
    (0xf03ccccc : Nat) < 2 ^ 32 ∧
      Message.check_parity (Message.fromU32 0xf03ccccc) =
        Except.error (ParityError.new (if (0xf03ccccc : Nat).testBit 31 then 0 else 1)
          (if (0xf03ccccc : Nat).testBit 31 then 1 else 0)) :=
  ⟨by decide, (claim_C1_check_parity 0xf03ccccc (by decide)).2 (by decide)⟩

/-- C2: for every 32-bit value v, update_parity on Message::from(v) yields a
message on which check_parity succeeds; if check_parity already succeeds the
result equals v bit-for-bit, and otherwise the result differs from v in
exactly bit 31. -/
theorem claim_C2_update_parity (v : Nat) (hv : v < 2 ^ 32) :
    Message.check_parity (Message.update_parity (Message.fromU32 v)) = Except.ok () ∧
    (Message.check_parity (Message.fromU32 v) = Except.ok () →
      Message.update_parity (Message.fromU32 v) = Message.fromU32 v) ∧
    (Message.check_parity (Message.fromU32 v) ≠ Except.ok () →
      ((Message.update_parity (Message.fromU32 v)).bits.testBit 31 = !(v.testBit 31) ∧
        ∀ i : Nat, ¬ i = 31 →
          (Message.update_parity (Message.fromU32 v)).bits.testBit i = v.testBit i)) := by
  have hM : Message.fromU32 v = Message.mk v := rfl
  refine ⟨?_, ?_, ?_⟩
  · rw [hM]
    exact update_parity_check_ok v hv
  · intro hok
    exact update_parity_of_ok _ hok
  · intro hne
    rw [hM] at hne ⊢
    have hpar : ¬ count_ones v % 2 = 1 := fun h => hne ((check_parity_ok_iff v).mpr h)
    rw [update_parity_def, if_neg hpar]
    constructor
    · show (v ^^^ 1 <<< 31).testBit 31 = !(v.testBit 31)
      rw [xor_bit31_testBit, if_pos rfl]
    · intro i hi
      show (v ^^^ 1 <<< 31).testBit i = v.testBit i
      rw [xor_bit31_testBit, if_neg hi]

/-- Witness for C2 at the even-parity word 0x22443300. -/
theorem claim_C2_witness :
    (0x22443300 : Nat) < 2 ^ 32 ∧
      Message.check_parity (Message.update_parity (Message.fromU32 0x22443300)) =
        Except.ok () :=
  ⟨by decide, (claim_C2_update_parity 0x22443300 (by decide)).1⟩

/-- C3: for every 32-bit value v, the label-bit swap is an involution, and a
single application leaves bits 8-31 identical to the input. -/
theorem claim_C3_swap_involution (v : Nat) (hv : v < 2 ^ 32) :
    Message.swap_label_bits (Message.swap_label_bits v) = v ∧
    (Message.from_bits_label_swapped v).bits_label_swapped = v ∧
    ∀ i : Nat, 8 ≤ i → (Message.swap_label_bits v).testBit i = v.testBit i := by
  refine ⟨swap_swap v hv, ?_, fun i hi => swap_testBit_high v hv i hi⟩
  show Message.swap_label_bits (Message.swap_label_bits v) = v
  exact swap_swap v hv

/-- Witness for C3 at 0x10000056. -/
theorem claim_C3_witness :
    (0x10000056 : Nat) < 2 ^ 32 ∧
      Message.swap_label_bits (Message.swap_label_bits 0x10000056) = 0x10000056 :=
  ⟨by decide, (claim_C3_swap_involution 0x10000056 (by decide)).1⟩

/-- C4: for every 32-bit value v, label() returns the 8-bit value obtained by
reversing v's low 8 bits (bit i maps to bit 7 - i), the result is independent
of bits 8-31, and the two documented octal renderings hold. -/
theorem claim_C4_label (v : Nat) (hv : v < 2 ^ 32) :
    ((Message.fromU32 v).label.val < 256 ∧
      ∀ i : Nat, i < 8 → (Message.fromU32 v).label.val.testBit i = v.testBit (7 - i)) ∧
    (∀ w : Nat, w < 2 ^ 32 → w % 256 = v % 256 →
      (Message.fromU32 w).label = (Message.fromU32 v).label) ∧
    Label.fmt_debug ((Message.fromU32 0x84000109).label) = "Label(0o220)" ∧
    Label.fmt_debug ((Message.fromU32 0x84000180).label) = "Label(0o001)" := by
  have hlab : ∀ u : Nat, u < 2 ^ 32 →
      (Message.fromU32 u).label = Label.mk (rev8 (u % 2 ^ 8)) := by
    intro u hu
    show Label.mk (Message.swap_label_bits u % 256) = _
    rw [show (256 : Nat) = 2 ^ 8 by norm_num, swap_mod u hu]
  refine ⟨⟨?_, ?_⟩, ?_, by decide, by decide⟩
  · rw [hlab v hv]
    show rev8 (v % 2 ^ 8) < 256
    exact rev8_lt (v % 2 ^ 8) (by omega)
  · intro i hi
    rw [hlab v hv]
    show (rev8 (v % 2 ^ 8)).testBit i = v.testBit (7 - i)
    rw [rev8_testBit (v % 2 ^ 8) (by omega) i hi, Nat.testBit_mod_two_pow]
    have h78 : 7 - i < 8 := by omega
    simp [h78]
  · intro w hw hmod
    rw [hlab w hw, hlab v hv]
    have hm8 : w % 2 ^ 8 = v % 2 ^ 8 := by omega
    rw [hm8]

/-- Witness for C4 at 0x84000109, whose label renders as 0o220. -/
theorem claim_C4_witness :
    (0x84000109 : Nat) < 2 ^ 32 ∧
      Label.fmt_debug ((Message.fromU32 0x84000109).label) = "Label(0o220)" :=
  ⟨by decide, (claim_C4_label 0x84000109 (by decide)).2.2.1⟩

/-- C5: for every 32-bit value v, update_parity is idempotent. -/
theorem claim_C5_idempotent (v : Nat) (hv : v < 2 ^ 32) :
    Message.update_parity (Message.update_parity (Message.fromU32 v)) =
      Message.update_parity (Message.fromU32 v) := by
  have hM : Message.fromU32 v = Message.mk v := rfl
  rw [hM]
  exact update_parity_of_ok _ (update_parity_check_ok v hv)

/-- Witness for C5 at 0x22443300. -/
theorem claim_C5_witness :
    (0x22443300 : Nat) < 2 ^ 32 ∧
      Message.update_parity (Message.update_parity (Message.fromU32 0x22443300)) =
        Message.update_parity (Message.fromU32 0x22443300) :=
  ⟨by decide, claim_C5_idempotent 0x22443300 (by decide)⟩

/-- C6: for every 32-bit value v, converting v to a Message and back to a raw
integer yields v exactly, with no bit modification and no failure. -/
theorem claim_C6_roundtrip (v : Nat) (_hv : v < 2 ^ 32) :
    u32FromMessage (Message.fromU32 v) = v := rfl

/-- Witness for C6 at 0x10000056. -/
theorem claim_C6_witness :
    (0x10000056 : Nat) < 2 ^ 32 ∧
      u32FromMessage (Message.fromU32 0x10000056) = 0x10000056 :=
  ⟨by decide, claim_C6_roundtrip 0x10000056 (by decide)⟩

/-- C7: the concrete label swap 0x10000056 maps to 0x1000006a, both through
from_bits_label_swapped and through bits_label_swapped. -/
theorem claim_C7_concrete_swap :
    Message.from_bits_label_swapped 0x10000056 = Message.fromU32 0x1000006a ∧
    (Message.fromU32 0x10000056).bits_label_swapped = 0x1000006a := by
  constructor <;> decide

/-- C8: for every 32-bit value v, the debug rendering of a Message is
"Message(0x" followed by exactly 8 zero-padded lowercase hex digits of the
raw value and ")"; in particular 0x0 renders as "Message(0x00000000)" and
0xffffffff as "Message(0xffffffff)". -/
theorem claim_C8_debug_format (v : Nat) (hv : v < 2 ^ 32) :
    Message.fmt_debug (Message.fromU32 v) =
      String.mk ("Message(0x".data ++
        ((List.range 8).map (fun j => Nat.digitChar (v / 16 ^ (7 - j) % 16)) ++ ")".data)) ∧
    Message.fmt_debug (Message.fromU32 0x0) = "Message(0x00000000)" ∧
    Message.fmt_debug (Message.fromU32 0xffffffff) = "Message(0xffffffff)" := by
  refine ⟨?_, by decide, by decide⟩
  have h16 : v < 16 ^ 8 := by norm_num; omega
  have hfr := formatRadix_eq 'x' 16 (by omega) 8 (by omega) (by omega) v h16
  show "Message(" ++ formatRadix 'x' 16 10 v ++ ")" = _
  rw [show (10 : Nat) = 8 + 2 from rfl, hfr]
  rw [show (8 : Nat) - 1 = 7 from rfl]
  rfl

/-- Witness for C8 at the all-zero word. -/
theorem claim_C8_witness :
    (0x0 : Nat) < 2 ^ 32 ∧
      Message.fmt_debug (Message.fromU32 0x0) = "Message(0x00000000)" :=
  ⟨by decide, (claim_C8_debug_format 0 (by decide)).2.1⟩

/-- C9: for every 32-bit value v, check_parity returns the same outcome on
Message::from(v) and on Message::from_bits_label_swapped(v): the label-bit
reversal permutes bits, preserving the population count and bit 31. -/
theorem claim_C9_parity_swap_invariant (v : Nat) (hv : v < 2 ^ 32) :
    Message.check_parity (Message.fromU32 v) =
      Message.check_parity (Message.from_bits_label_swapped v) := by
  have hM1 : Message.fromU32 v = Message.mk v := rfl
  have hM2 : Message.from_bits_label_swapped v =
      Message.mk (Message.swap_label_bits v) := rfl
  rw [hM1, hM2, check_parity_def, check_parity_def, swap_count v hv]
  have hsr : Message.swap_label_bits v >>> 31 = v >>> 31 := by
    rw [Nat.shiftRight_eq_div_pow, Nat.shiftRight_eq_div_pow]
    have hdd : ∀ x : Nat, x / 2 ^ 31 = x / 2 ^ 8 / 2 ^ 23 := by
      intro x
      rw [Nat.div_div_eq_div_mul]
      norm_num
    rw [hdd, hdd v, swap_div v hv]
  rw [hsr]

/-- Witness for C9 at 0xf03ccccc, where both checks fail with equal errors. -/
theorem claim_C9_witness :
    (0xf03ccccc : Nat) < 2 ^ 32 ∧
      Message.check_parity (Message.fromU32 0xf03ccccc) =
        Message.check_parity (Message.from_bits_label_swapped 0xf03ccccc) :=
  ⟨by decide, claim_C9_parity_swap_invariant 0xf03ccccc (by decide)⟩

/-- C10: for every 32-bit value v, parity repair never changes the label:
update_parity can only change bit 31, while label depends only on bits 0-7. -/
theorem claim_C10_label_stable (v : Nat) (hv : v < 2 ^ 32) :
    (Message.update_parity (Message.fromU32 v)).label = (Message.fromU32 v).label := by
  have hM : Message.fromU32 v = Message.mk v := rfl
  rw [hM, update_parity_def]
  by_cases h : count_ones v % 2 = 1
  · rw [if_pos h]
  · rw [if_neg h]
    show Label.mk (Message.swap_label_bits (v ^^^ 1 <<< 31) % 256) =
      Label.mk (Message.swap_label_bits v % 256)
    have hx : v ^^^ 1 <<< 31 < 2 ^ 32 := xor_bit31_lt v hv
    rw [show (256 : Nat) = 2 ^ 8 by norm_num, swap_mod _ hx, swap_mod v hv,
      xor_bit31_mod256]

/-- Witness for C10 at the even-parity word 0x22443300. -/
theorem claim_C10_witness :
    (0x22443300 : Nat) < 2 ^ 32 ∧
      (Message.update_parity (Message.fromU32 0x22443300)).label =
        (Message.fromU32 0x22443300).label :=
  ⟨by decide, claim_C10_label_stable 0x22443300 (by decide)⟩
